import Mathlib

/-!
Verification of the archival image pipeline (`create_pdfs.py`, `apply_corrections.py`):
a shallow embedding of the correction pipeline, the paginator, the rotation
mapping, the review-artifact loader, the archive writer and the rotation-apply
main loop, together with proofs of the behavioural properties claimed for them.
-/

namespace Archival

/-- An image file found in the input directory: its filename and its on-disk
size in bytes (`img_path.stat().st_size`). -/
structure ImageRecord where
  filename : String
  sizeBytes : Nat
  deriving DecidableEq, Repr

/-- One element of the corrected sequence: an image record paired with the
rotation angle looked up from the review artifact (`(img_path, rotation)` in
`create_pdfs.py::main`). -/
abbrev CorrectedEntry := ImageRecord × Int

/-- The correction pipeline of `create_pdfs.py::main` lines 126-131: walk the
sorted image list, drop filenames in `discards`, and pair each survivor with
`corrections.get(filename, 0)`. -/
def applyCorrections (rotations : String → Option Int) (discards : Finset String) :
    List ImageRecord → List CorrectedEntry
  | [] => []
  | r :: rs =>
    if r.filename ∈ discards then
      applyCorrections rotations discards rs
    else
      (r, (rotations r.filename).getD 0) :: applyCorrections rotations discards rs

/-- Loop of the manual-mode splitter, `create_pdfs.py::main` lines 142-152:
`sections` and `current_section` are the accumulators; when the entry's
filename is in `section_breaks` and the current section is non-empty the
current section is closed and the entry starts the next one. -/
def splitManualGo (breaks : Finset String) (sections : List (List CorrectedEntry))
    (current : List CorrectedEntry) : List CorrectedEntry → List (List CorrectedEntry)
  | [] => if current = [] then sections else sections ++ [current]
  | e :: es =>
    if e.1.filename ∈ breaks ∧ current ≠ [] then
      splitManualGo breaks (sections ++ [current]) [e] es
    else
      splitManualGo breaks sections (current ++ [e]) es

/-- Manual-mode section splitting (`create_pdfs.py::main` lines 140-153). -/
def splitManual (breaks : Finset String) (entries : List CorrectedEntry) :
    List (List CorrectedEntry) :=
  splitManualGo breaks [] [] entries

/-- The per-image size estimate of automatic mode:
`img_path.stat().st_size * 0.85` (`create_pdfs.py` line 163), modelled exactly
over the rationals. -/
def estimate (r : ImageRecord) : ℚ := (r.sizeBytes : ℚ) * (85 / 100)

/-- Loop of the automatic-mode splitter, `create_pdfs.py::main` lines 158-171:
if adding the entry's estimate would push `current_size` over `maxBytes` and
the current section is non-empty, close it and reset the size before adding. -/
def splitAutoGo (maxBytes : ℚ) (sections : List (List CorrectedEntry))
    (current : List CorrectedEntry) (currentSize : ℚ) :
    List CorrectedEntry → List (List CorrectedEntry)
  | [] => if current = [] then sections else sections ++ [current]
  | e :: es =>
    if currentSize + estimate e.1 > maxBytes ∧ current ≠ [] then
      splitAutoGo maxBytes (sections ++ [current]) [e] (estimate e.1) es
    else
      splitAutoGo maxBytes sections (current ++ [e]) (currentSize + estimate e.1) es

/-- Automatic-mode section splitting (`create_pdfs.py::main` lines 155-174). -/
def splitAuto (maxBytes : ℚ) (entries : List CorrectedEntry) :
    List (List CorrectedEntry) :=
  splitAutoGo maxBytes [] [] 0 entries

/-- Total size estimate of a section: the sum of its entries' estimates, the
value `current_size` accumulates while the section is built. -/
def sectionEstimate (s : List CorrectedEntry) : ℚ :=
  (s.map (fun e => estimate e.1)).sum

/-- A raster image: height, width and a pixel function (value at row `i`,
column `j`; values outside the bounds are irrelevant). Decoding, colour
conversion and encoding are collaborator concerns. -/
structure Img where
  h : Nat
  w : Nat
  pix : Nat → Nat → Int

/-- Counter-clockwise quarter turn (`cv2.ROTATE_90_COUNTERCLOCKWISE`,
`PIL Image.Transpose.ROTATE_90`): the new row `i` is the old column
`w - 1 - i`. -/
def rotateCCW (m : Img) : Img :=
  ⟨m.w, m.h, fun i j => m.pix j (m.w - 1 - i)⟩

/-- Half turn (`cv2.ROTATE_180`, `PIL Image.Transpose.ROTATE_180`). -/
def rotate180 (m : Img) : Img :=
  ⟨m.h, m.w, fun i j => m.pix (m.h - 1 - i) (m.w - 1 - j)⟩

/-- Clockwise quarter turn (`cv2.ROTATE_90_CLOCKWISE`,
`PIL Image.Transpose.ROTATE_270`, i.e. 270° counter-clockwise). -/
def rotateCW (m : Img) : Img :=
  ⟨m.w, m.h, fun i j => m.pix (m.h - 1 - j) i⟩

/-- `apply_corrections.py::rotate_image` (lines 13-21): dispatch on the angle
to the cv2 rotation constants; any other angle is the identity. -/
def rotate_image (image : Img) (angle : Int) : Img :=
  if angle = 90 then rotateCCW image
  else if angle = 180 then rotate180 image
  else if angle = 270 then rotateCW image
  else image

/-- The PIL `Image.Transpose` constants used by `create_pdfs.py`. -/
inductive PILTranspose where
  | rotate90
  | rotate180
  | rotate270

/-- Semantics of `img.transpose` for the three rotation constants: PIL's
`ROTATE_90` is a counter-clockwise quarter turn and `ROTATE_270` a clockwise
one. -/
def pilTranspose (m : Img) : PILTranspose → Img
  | .rotate90 => rotateCCW m
  | .rotate180 => rotate180 m
  | .rotate270 => rotateCW m

/-- `create_pdfs.py::rotate_image` (lines 22-30): dispatch on the angle to
`img.transpose(Image.Transpose.ROTATE_*)`; any other angle is the identity. -/
def rotate_image_pdf (img : Img) (degrees : Int) : Img :=
  if degrees = 90 then pilTranspose img .rotate90
  else if degrees = 180 then pilTranspose img .rotate180
  else if degrees = 270 then pilTranspose img .rotate270
  else img

/-- Parsed JSON values (numbers restricted to integers, which covers every
artifact the pipeline reads). -/
inductive Json where
  | num (n : Int)
  | str (s : String)
  | bool (b : Bool)
  | null
  | arr (elems : List Json)
  | obj (members : List (String × Json))

/-- Python `len(x)`: defined for dicts, lists and strings, a `TypeError` for
numbers, booleans and `None`. -/
def pyLen : Json → Option Nat
  | .obj kvs => some kvs.length
  | .arr xs => some xs.length
  | .str s => some s.length
  | _ => none

/-- Whether a JSON value is hashable as a Python set element (lists and dicts
are not). -/
def pyHashable : Json → Bool
  | .arr _ => false
  | .obj _ => false
  | _ => true

/-- Python `set(x)`: iterating a list yields its (hashable) elements, a
string its one-character substrings, a dict its keys; numbers, booleans and
`None` are not iterable (`TypeError`). Duplicates are irrelevant here, so the
set is kept as a list of members. -/
def pySet : Json → Option (List Json)
  | .arr xs => if xs.all pyHashable then some xs else none
  | .str s => some (s.toList.map fun c => .str (String.mk [c]))
  | .obj kvs => some (kvs.map fun kv => .str kv.1)
  | _ => none

/-- Python `d.get(key, default)` on a parsed JSON object. -/
def jsonGetD (kvs : List (String × Json)) (key : String) (dflt : Json) : Json :=
  (kvs.lookup key).getD dflt

/-- The artifact-loading block of `create_pdfs.py::main` (lines 107-117):
if the root is a dict containing `corrections`, read the current shape
(`set()` conversion of `sectionBreaks`/`discards` can raise); otherwise the
whole root becomes the legacy `corrections` value, whatever it is. The
subsequent `print` evaluates `len(corrections)`, which raises for values
without a length. `none` models an uncaught exception aborting the run. -/
def loadReview (data : Json) : Option (Json × List Json × List Json) :=
  match data with
  | .obj kvs =>
    if (kvs.lookup "corrections").isSome then
      match pySet (jsonGetD kvs "sectionBreaks" (.arr [])),
          pySet (jsonGetD kvs "discards" (.arr [])) with
      | some sbs, some dcs =>
        match pyLen (jsonGetD kvs "corrections" (.obj [])) with
        | some _ => some (jsonGetD kvs "corrections" (.obj []), sbs, dcs)
        | none => none
      | _, _ => none
    else
      -- legacy branch: `corrections = data`, a dict, so `len` succeeds
      some (data, [], [])
  | _ =>
    match pyLen data with
    | some _ => some (data, [], [])
    | none => none

/-- The page-collecting loop of `create_pdfs.py::create_pdf` (lines 41-60):
state is `first_image` and the `images` list; a failed decode prints a
warning and skips the entry; a decoded image is rotated when the angle is
non-zero ("if rotation:"). -/
def createPdfLoop (decode : String → Option Img) :
    Option Img → List Img → List (String × Int) → Option Img × List Img
  | first, imgs, [] => (first, imgs)
  | first, imgs, pr :: rest =>
    match decode pr.1 with
    | none => createPdfLoop decode first imgs rest
    | some img0 =>
      let img := if pr.2 ≠ 0 then rotate_image_pdf img0 pr.2 else img0
      match first with
      | none => createPdfLoop decode (some img) imgs rest
      | some f => createPdfLoop decode (some f) (imgs ++ [img]) rest

/-- `create_pdfs.py::create_pdf` (lines 33-78): returns the page count and,
when at least one page decoded, the ordered page list written to the output
document (`none` means no output file was produced). -/
def createPdf (decode : String → Option Img) (imageData : List (String × Int)) :
    Nat × Option (List Img) :=
  if imageData = [] then (0, none)
  else
    match createPdfLoop decode none [] imageData with
    | (some f, imgs) => (imgs.length + 1, some (f :: imgs))
    | (none, _) => (0, none)

/-- The pages `create_pdf` assembles: the successfully decoded images, in
input order, rotated when their angle is non-zero. -/
def decodedPages (decode : String → Option Img) (imageData : List (String × Int)) :
    List Img :=
  imageData.filterMap fun pr =>
    (decode pr.1).map fun img0 => if pr.2 ≠ 0 then rotate_image_pdf img0 pr.2 else img0

/-- `pathlib.Path.suffix` of a filename: the part from the last dot on,
empty when there is no dot, when the only dot is the leading character, or
when the name ends in a dot. -/
def pathSuffix (name : String) : String :=
  let cs := name.toList
  match cs.reverse.findIdx? (· = '.') with
  | none => ""
  | some k =>
    let i := cs.length - 1 - k
    if 0 < i ∧ i < cs.length - 1 then String.mk (cs.drop i) else ""

/-- The extension set of `create_pdfs.py::get_image_files` (line 14): the
six literal strings, all-lowercase or all-uppercase only. -/
def imageExtensions : List String :=
  [".jpeg", ".jpg", ".png", ".JPEG", ".JPG", ".PNG"]

/-- `create_pdfs.py::get_image_files` (lines 12-19): keep the directory
members whose `Path.suffix` is one of the six extension strings, sorted by
filename. -/
def get_image_files (names : List String) : List String :=
  (names.filter fun n => pathSuffix n ∈ imageExtensions).mergeSort

/-- Whether a filename matches the glob pattern `*<ext>`: the pattern's tail
is a literal suffix of the name (`pathlib` glob matching is case-sensitive
here). -/
def endsWithExt (ext : String) (n : String) : Bool :=
  decide (ext.toList <:+ n.toList)

/-- The image enumeration of `apply_corrections.py::main` (lines 50-55):
the concatenation of the four glob results, sorted. -/
def rotationImages (names : List String) : List String :=
  (names.filter (endsWithExt ".JPEG") ++ names.filter (endsWithExt ".jpeg") ++
    names.filter (endsWithExt ".jpg") ++ names.filter (endsWithExt ".png")).mergeSort

/-- ASCII lowercasing on code points, for case-insensitive extension
comparison. -/
def lowerNat (n : Nat) : Nat := if 65 ≤ n ∧ n ≤ 90 then n + 32 else n

/-- Case-insensitive string equality (ASCII). -/
def strIEq (s t : String) : Bool :=
  decide ((s.toList.map fun c => lowerNat c.toNat) =
    (t.toList.map fun c => lowerNat c.toNat))

/-- Modelled from the spec: "member files filtered to image extensions
`{.jpeg,.jpg,.png}` case-insensitive; ordering = lexicographic by filename".
Stated only to compare with the enumeration the code performs. -/
def specImageFiles (names : List String) : List String :=
  (names.filter fun n => [".jpeg", ".jpg", ".png"].any (strIEq (pathSuffix n))).mergeSort

/-- The four run counters of `apply_corrections.py::main` (line 57). -/
structure RotStats where
  rotated : Nat
  copied : Nat
  skipped : Nat
  errors : Nat
  deriving DecidableEq, Repr

/-- The per-image loop of `apply_corrections.py::main` (lines 59-91): for a
filename in the corrections map, decode (`cv2.imread`; `None` counts an
error), rotate by the mapped angle, write the result and count it rotated;
otherwise copy it through (when `--copy-unchanged`) or skip it. Returns the
counters and the list of rotated files written. -/
def processImages (corrections : String → Option Int) (copyUnchanged : Bool)
    (decode : String → Option Img) : List String → RotStats × List (String × Img)
  | [] => (⟨0, 0, 0, 0⟩, [])
  | filename :: rest =>
    let (stats, writes) := processImages corrections copyUnchanged decode rest
    match corrections filename with
    | some angle =>
      match decode filename with
      | none => ({stats with errors := stats.errors + 1}, writes)
      | some img =>
        ({stats with rotated := stats.rotated + 1},
          (filename, rotate_image img angle) :: writes)
    | none =>
      if copyUnchanged then ({stats with copied := stats.copied + 1}, writes)
      else ({stats with skipped := stats.skipped + 1}, writes)

/-! ### Invariant lemmas for the two splitters -/

lemma splitManualGo_flatten (breaks : Finset String) (sections : List (List CorrectedEntry))
    (current : List CorrectedEntry) (es : List CorrectedEntry) :
    (splitManualGo breaks sections current es).flatten = sections.flatten ++ current ++ es := by
  induction es generalizing sections current with
  | nil =>
    simp only [splitManualGo]
    split
    · simp_all
    · simp
  | cons e es ih =>
    simp only [splitManualGo]
    split
    · rw [ih]; simp
    · rw [ih]; simp

lemma splitManualGo_nonempty (breaks : Finset String) (sections : List (List CorrectedEntry))
    (current : List CorrectedEntry) (es : List CorrectedEntry)
    (hs : ∀ s ∈ sections, s ≠ []) :
    ∀ s ∈ splitManualGo breaks sections current es, s ≠ [] := by
  induction es generalizing sections current with
  | nil =>
    simp only [splitManualGo]
    split
    · exact hs
    · intro s hmem
      rcases List.mem_append.1 hmem with h | h
      · exact hs s h
      · simp only [List.mem_singleton] at h
        subst h; assumption
  | cons e es ih =>
    simp only [splitManualGo]
    split
    · rename_i hcond
      apply ih
      intro s hmem
      rcases List.mem_append.1 hmem with h | h
      · exact hs s h
      · simp only [List.mem_singleton] at h
        subst h; exact hcond.2
    · apply ih
      exact hs

lemma splitAutoGo_flatten (maxBytes : ℚ) (sections : List (List CorrectedEntry))
    (current : List CorrectedEntry) (currentSize : ℚ) (es : List CorrectedEntry) :
    (splitAutoGo maxBytes sections current currentSize es).flatten =
      sections.flatten ++ current ++ es := by
  induction es generalizing sections current currentSize with
  | nil =>
    simp only [splitAutoGo]
    split
    · simp_all
    · simp
  | cons e es ih =>
    simp only [splitAutoGo]
    split
    · rw [ih]; simp
    · rw [ih]; simp

lemma splitAutoGo_nonempty (maxBytes : ℚ) (sections : List (List CorrectedEntry))
    (current : List CorrectedEntry) (currentSize : ℚ) (es : List CorrectedEntry)
    (hs : ∀ s ∈ sections, s ≠ []) :
    ∀ s ∈ splitAutoGo maxBytes sections current currentSize es, s ≠ [] := by
  induction es generalizing sections current currentSize with
  | nil =>
    simp only [splitAutoGo]
    split
    · exact hs
    · intro s hmem
      rcases List.mem_append.1 hmem with h | h
      · exact hs s h
      · simp only [List.mem_singleton] at h
        subst h; assumption
  | cons e es ih =>
    simp only [splitAutoGo]
    split
    · rename_i hcond
      apply ih
      intro s hmem
      rcases List.mem_append.1 hmem with h | h
      · exact hs s h
      · simp only [List.mem_singleton] at h
        subst h; exact hcond.2
    · apply ih
      exact hs

/-- **C1.** For every (possibly empty) corrected entry sequence, splitting in
either mode (manual section breaks or automatic size-bounded) yields sections
that are all non-empty and whose in-order concatenation is exactly the input
sequence: no entry dropped, duplicated, or reordered. -/
theorem split_partitions (entries : List CorrectedEntry) (breaks : Finset String)
    (maxBytes : ℚ) :
    (splitManual breaks entries).flatten = entries ∧
      (∀ s ∈ splitManual breaks entries, s ≠ []) ∧
      (splitAuto maxBytes entries).flatten = entries ∧
      (∀ s ∈ splitAuto maxBytes entries, s ≠ []) := by
  refine ⟨?_, ?_, ?_, ?_⟩
  · simpa using splitManualGo_flatten breaks [] [] entries
  · exact splitManualGo_nonempty breaks [] [] entries (by simp)
  · simpa using splitAutoGo_flatten maxBytes [] [] 0 entries
  · exact splitAutoGo_nonempty maxBytes [] [] 0 entries (by simp)

/-- Concrete instance discharging the hypotheses of `split_partitions`: the
single section produced for a one-entry sequence is non-empty. -/
theorem split_partitions_witness :
    ([((⟨"a.jpg", 10⟩ : ImageRecord), (0 : Int))] : List CorrectedEntry) ≠ [] :=
  (split_partitions [((⟨"a.jpg", 10⟩ : ImageRecord), (0 : Int))] {"c.jpg"} 1200).2.1
    [((⟨"a.jpg", 10⟩ : ImageRecord), (0 : Int))] (by decide)

/-! ### The correction pipeline (C2) -/

lemma applyCorrections_eq_filter_map (rotations : String → Option Int)
    (discards : Finset String) (seq : List ImageRecord) :
    applyCorrections rotations discards seq =
      (seq.filter (fun r => r.filename ∉ discards)).map
        (fun r => (r, (rotations r.filename).getD 0)) := by
  induction seq with
  | nil => rfl
  | cons r rs ih =>
    simp only [applyCorrections, List.filter_cons]
    by_cases h : r.filename ∈ discards <;> simp [h, ih]

lemma length_filter_not_mem (discards : Finset String) (seq : List ImageRecord) :
    (seq.filter (fun r => r.filename ∉ discards)).length =
      seq.length - (seq.filter (fun r => r.filename ∈ discards)).length := by
  induction seq with
  | nil => rfl
  | cons r rs ih =>
    have hle : (rs.filter (fun r => r.filename ∈ discards)).length ≤ rs.length :=
      List.length_filter_le _ _
    simp only [List.mem_filter] at ih
    by_cases h : r.filename ∈ discards <;>
      simp [List.filter_cons, h] <;> simp at ih <;> omega

/-- **C2.** The correction pipeline emits exactly the non-discarded records,
in input order, each paired with the artifact's rotation for that filename or
0 when absent; its length is the input length minus the number of discarded
filenames occurring in the sequence. -/
theorem correction_pipeline_spec (rotations : String → Option Int)
    (discards : Finset String) (seq : List ImageRecord) :
    applyCorrections rotations discards seq =
      (seq.filter (fun r => r.filename ∉ discards)).map
        (fun r => (r, (rotations r.filename).getD 0)) ∧
    (applyCorrections rotations discards seq).map Prod.fst =
      seq.filter (fun r => r.filename ∉ discards) ∧
    (applyCorrections rotations discards seq).length =
      seq.length - (seq.filter (fun r => r.filename ∈ discards)).length := by
  refine ⟨applyCorrections_eq_filter_map rotations discards seq, ?_, ?_⟩
  · rw [applyCorrections_eq_filter_map, List.map_map]
    have hcomp : (Prod.fst ∘ fun r : ImageRecord => (r, (rotations r.filename).getD 0)) =
        id := rfl
    rw [hcomp, List.map_id]
  · rw [applyCorrections_eq_filter_map, List.length_map]
    exact length_filter_not_mem discards seq

/-! ### Manual-mode section count (C4) -/

lemma splitManualGo_length (breaks : Finset String)
    (sections : List (List CorrectedEntry)) (current : List CorrectedEntry)
    (es : List CorrectedEntry) (hc : current ≠ []) :
    (splitManualGo breaks sections current es).length =
      sections.length + 1 + (es.filter (fun e => e.1.filename ∈ breaks)).length := by
  induction es generalizing sections current with
  | nil =>
    simp only [splitManualGo, hc, if_false, List.length_append, List.length_singleton,
      List.filter_nil, List.length_nil]
  | cons e es ih =>
    simp only [splitManualGo, List.filter_cons]
    by_cases hb : e.1.filename ∈ breaks
    · rw [if_pos ⟨hb, hc⟩]
      rw [ih (sections ++ [current]) [e] (by simp)]
      simp [hb]
      omega
    · rw [if_neg (by tauto)]
      rw [ih sections (current ++ [e]) (by simp)]
      simp [hb]

lemma splitManualGo_tail_break (breaks : Finset String)
    (sections : List (List CorrectedEntry)) (current : List CorrectedEntry)
    (es : List CorrectedEntry)
    (h1 : ∀ s ∈ sections.tail, ∃ e, s.head? = some e ∧ e.1.filename ∈ breaks)
    (h2 : sections ≠ [] → current ≠ [] ∧
      ∃ e, current.head? = some e ∧ e.1.filename ∈ breaks) :
    ∀ s ∈ (splitManualGo breaks sections current es).tail,
      ∃ e, s.head? = some e ∧ e.1.filename ∈ breaks := by
  induction es generalizing sections current with
  | nil =>
    simp only [splitManualGo]
    split
    · exact h1
    · rcases sections with _ | ⟨s0, srest⟩
      · simp
      · intro s hmem
        simp only [List.cons_append, List.tail_cons] at hmem
        rcases List.mem_append.1 hmem with h | h
        · exact h1 s (by simpa using h)
        · simp only [List.mem_singleton] at h
          subst h
          exact (h2 (by simp)).2
  | cons e es ih =>
    simp only [splitManualGo]
    split
    · rename_i hcond
      apply ih
      · rcases sections with _ | ⟨s0, srest⟩
        · simp
        · intro s hmem
          simp only [List.cons_append, List.tail_cons] at hmem
          rcases List.mem_append.1 hmem with h | h
          · exact h1 s (by simpa using h)
          · simp only [List.mem_singleton] at h
            subst h
            exact (h2 (by simp)).2
      · intro _
        exact ⟨by simp, e, by simp, hcond.1⟩
    · rename_i hcond
      apply ih
      · exact h1
      · intro hne
        rcases h2 hne with ⟨hcne, e', he', hmem⟩
        refine ⟨by simp, e', ?_, hmem⟩
        rcases current with _ | ⟨c0, cs⟩
        · exact absurd rfl hcne
        · simpa using he'

/-- **C4.** With a non-empty break set and a non-empty corrected sequence,
manual-mode splitting yields `1 + k` sections, where `k` counts the corrected
entries after the first whose filename is a break marker (a marker on a
discarded filename never survives into the corrected sequence, and one on the
first surviving entry triggers no split); moreover every section other than
the first begins with a break-marked entry — the marker starts the next
section rather than closing into the previous one. -/
theorem manual_section_count (rotations : String → Option Int)
    (discards breaks : Finset String) (seq : List ImageRecord)
    (hb : breaks.Nonempty)
    (hne : applyCorrections rotations discards seq ≠ []) :
    (splitManual breaks (applyCorrections rotations discards seq)).length =
      1 + ((applyCorrections rotations discards seq).tail.filter
            (fun e => e.1.filename ∈ breaks)).length ∧
    ∀ s ∈ (splitManual breaks (applyCorrections rotations discards seq)).tail,
      ∃ e, s.head? = some e ∧ e.1.filename ∈ breaks := by
  rcases hcs : applyCorrections rotations discards seq with _ | ⟨e0, rest⟩
  · exact absurd hcs hne
  constructor
  · show (splitManualGo breaks [] [] (e0 :: rest)).length = _
    rw [show splitManualGo breaks [] [] (e0 :: rest) =
        splitManualGo breaks [] [e0] rest by
      simp [splitManualGo]]
    rw [splitManualGo_length breaks [] [e0] rest (by simp)]
    simp
  · show ∀ s ∈ (splitManualGo breaks [] [] (e0 :: rest)).tail, _
    rw [show splitManualGo breaks [] [] (e0 :: rest) =
        splitManualGo breaks [] [e0] rest by
      simp [splitManualGo]]
    exact splitManualGo_tail_break breaks [] [e0] rest (by simp) (by simp)

/-- Concrete instance discharging the hypotheses of `manual_section_count`:
breaks `{c.jpg}`, no discards, three surviving images. -/
theorem manual_section_count_witness :
    (splitManual {"c.jpg"} (applyCorrections (fun _ => none) ∅
        [⟨"a.jpg", 10⟩, ⟨"c.jpg", 10⟩, ⟨"d.jpg", 10⟩])).length =
      1 + ((applyCorrections (fun _ => none) (∅ : Finset String)
        [⟨"a.jpg", 10⟩, ⟨"c.jpg", 10⟩, ⟨"d.jpg", 10⟩]).tail.filter
          (fun e => e.1.filename ∈ ({"c.jpg"} : Finset String))).length :=
  (manual_section_count (fun _ => none) ∅ {"c.jpg"}
    [⟨"a.jpg", 10⟩, ⟨"c.jpg", 10⟩, ⟨"d.jpg", 10⟩]
    ⟨"c.jpg", by decide⟩ (by decide)).1

/-! ### Automatic-mode size bound (C5) and the `maxBytes ≤ 0` edge case (C7) -/

lemma sectionEstimate_append (s : List CorrectedEntry) (e : CorrectedEntry) :
    sectionEstimate (s ++ [e]) = sectionEstimate s + estimate e.1 := by
  simp [sectionEstimate]

lemma splitAutoGo_bounded (maxBytes : ℚ) (sections : List (List CorrectedEntry))
    (current : List CorrectedEntry) (currentSize : ℚ) (es : List CorrectedEntry)
    (hsz : currentSize = sectionEstimate current)
    (hs : ∀ s ∈ sections, 2 ≤ s.length → sectionEstimate s ≤ maxBytes)
    (hc : 2 ≤ current.length → currentSize ≤ maxBytes) :
    ∀ s ∈ splitAutoGo maxBytes sections current currentSize es,
      2 ≤ s.length → sectionEstimate s ≤ maxBytes := by
  induction es generalizing sections current currentSize with
  | nil =>
    simp only [splitAutoGo]
    split
    · exact hs
    · intro s hmem
      rcases List.mem_append.1 hmem with h | h
      · exact hs s h
      · simp only [List.mem_singleton] at h
        subst h
        rw [← hsz]
        exact hc
  | cons e es ih =>
    simp only [splitAutoGo]
    split
    · rename_i hcond
      apply ih _ _ _ (by simp [sectionEstimate])
      · intro s hmem
        rcases List.mem_append.1 hmem with h | h
        · exact hs s h
        · simp only [List.mem_singleton] at h
          subst h
          rw [← hsz]
          exact hc
      · intro hlen
        simp at hlen
    · rename_i hcond
      apply ih _ _ _ (by rw [sectionEstimate_append, hsz])
      · exact hs
      · intro hlen
        rcases List.eq_nil_or_concat current with hnil | _
        · subst hnil
          simp at hlen
        · have hne : current ≠ [] := by
            rename_i h'
            rcases h' with ⟨_, _, rfl⟩
            simp
          have : ¬ currentSize + estimate e.1 > maxBytes := fun hgt => hcond ⟨hgt, hne⟩
          linarith [not_lt.1 this]

/-- **C5.** In automatic mode, every produced section that contains two or
more entries has total size estimate (`sizeBytes × 0.85` summed) at most
`maxBytes`; only a singleton section — forced by an entry whose own estimate
exceeds the bound — can ever exceed it. -/
theorem auto_sections_bounded (maxBytes : ℚ) (entries : List CorrectedEntry) :
    ∀ s ∈ splitAuto maxBytes entries, 2 ≤ s.length → sectionEstimate s ≤ maxBytes := by
  apply splitAutoGo_bounded maxBytes [] [] 0 entries
  · simp [sectionEstimate]
  · simp
  · intro h
    simp at h

/-- Concrete instance discharging the hypotheses of `auto_sections_bounded`:
two 600-byte images under a 1200-byte bound stay in one section whose
estimate respects the bound. -/
theorem auto_sections_bounded_witness :
    sectionEstimate [((⟨"a.jpg", 600⟩ : ImageRecord), (0 : Int)),
      ((⟨"b.jpg", 600⟩ : ImageRecord), (0 : Int))] ≤ (1200 : ℚ) :=
  auto_sections_bounded 1200
    [((⟨"a.jpg", 600⟩ : ImageRecord), (0 : Int)),
      ((⟨"b.jpg", 600⟩ : ImageRecord), (0 : Int))]
    [((⟨"a.jpg", 600⟩ : ImageRecord), (0 : Int)),
      ((⟨"b.jpg", 600⟩ : ImageRecord), (0 : Int))]
    (by norm_num [splitAuto, splitAutoGo, estimate] <;> simp) (by decide)

/-- **C7 counterexample.** With `maxBytes = 0` and two zero-byte images (size
estimate `0`), the overflow test `0 + 0 > 0` is false, so automatic mode puts
both entries into a single section: the claimed "one section per entry"
degeneration fails for `maxBytes ≤ 0`. -/
theorem auto_zero_max_not_singletons :
    splitAuto 0 [((⟨"a.jpg", 0⟩ : ImageRecord), (0 : Int)),
        ((⟨"b.jpg", 0⟩ : ImageRecord), (0 : Int))] =
      [[((⟨"a.jpg", 0⟩ : ImageRecord), (0 : Int)),
        ((⟨"b.jpg", 0⟩ : ImageRecord), (0 : Int))]] ∧
    ¬ ∀ s ∈ splitAuto 0 [((⟨"a.jpg", 0⟩ : ImageRecord), (0 : Int)),
        ((⟨"b.jpg", 0⟩ : ImageRecord), (0 : Int))], s.length = 1 := by
  have h1 : splitAuto 0 [((⟨"a.jpg", 0⟩ : ImageRecord), (0 : Int)),
      ((⟨"b.jpg", 0⟩ : ImageRecord), (0 : Int))] =
      [[((⟨"a.jpg", 0⟩ : ImageRecord), (0 : Int)),
        ((⟨"b.jpg", 0⟩ : ImageRecord), (0 : Int))]] := by
    norm_num [splitAuto, splitAutoGo, estimate] <;> simp
  refine ⟨h1, fun h => ?_⟩
  have h2 := h [((⟨"a.jpg", 0⟩ : ImageRecord), (0 : Int)),
    ((⟨"b.jpg", 0⟩ : ImageRecord), (0 : Int))] (by rw [h1]; simp)
  simp at h2

lemma estimate_pos (r : ImageRecord) (h : 0 < r.sizeBytes) : 0 < estimate r := by
  have : (0 : ℚ) < (r.sizeBytes : ℚ) := by exact_mod_cast h
  have h85 : (0 : ℚ) < 85 / 100 := by norm_num
  simpa [estimate] using mul_pos this h85

lemma splitAutoGo_nonpos_singletons (maxBytes : ℚ) (hmax : maxBytes ≤ 0) :
    ∀ es : List CorrectedEntry, (∀ x ∈ es, 0 < x.1.sizeBytes) →
      ∀ sections e currentSize, 0 ≤ currentSize →
        splitAutoGo maxBytes sections [e] currentSize es =
          sections ++ [[e]] ++ es.map (fun x => [x]) := by
  intro es
  induction es with
  | nil =>
    intro _ sections e currentSize _
    simp [splitAutoGo]
  | cons e' es ih =>
    intro hpos sections e currentSize hcs
    have hpe : 0 < estimate e'.1 :=
      estimate_pos _ (hpos e' (by simp))
    have hover : currentSize + estimate e'.1 > maxBytes := by linarith
    simp only [splitAutoGo]
    rw [if_pos (⟨hover, by simp⟩ :
      currentSize + estimate e'.1 > maxBytes ∧ ([e] : List CorrectedEntry) ≠ [])]
    rw [ih (fun x hx => hpos x (by simp [hx])) (sections ++ [[e]]) e' (estimate e'.1)
      (le_of_lt hpe)]
    simp

/-- **C7 amended.** The `maxBytes ≤ 0` degeneration to one section per entry
holds provided every entry has positive size (so its estimate is positive):
then each addition overflows the non-positive bound and every section is a
singleton. (The unamended claim fails for zero-byte images when
`maxBytes = 0`, see the counterexample.) -/
theorem auto_nonpos_max_singletons (maxBytes : ℚ) (entries : List CorrectedEntry)
    (hmax : maxBytes ≤ 0) (hpos : ∀ e ∈ entries, 0 < (e : CorrectedEntry).1.sizeBytes) :
    splitAuto maxBytes entries = entries.map (fun e => [e]) := by
  rcases entries with _ | ⟨e, es⟩
  · rfl
  · show splitAutoGo maxBytes [] [] 0 (e :: es) = _
    have hpe : 0 < estimate e.1 := estimate_pos _ (hpos e (by simp))
    rw [show splitAutoGo maxBytes [] [] 0 (e :: es) =
        splitAutoGo maxBytes [] [e] (0 + estimate e.1) es by
      simp [splitAutoGo]]
    rw [show (0 : ℚ) + estimate e.1 = estimate e.1 by ring]
    rw [splitAutoGo_nonpos_singletons maxBytes hmax es
      (fun x hx => hpos x (by simp [hx])) [] e (estimate e.1) (le_of_lt hpe)]
    simp

/-- Concrete instance discharging the hypotheses of
`auto_nonpos_max_singletons`: two positive-size images under `maxBytes = 0`
land in one singleton section each. -/
theorem auto_nonpos_max_singletons_witness :
    splitAuto 0 [((⟨"a.jpg", 600⟩ : ImageRecord), (0 : Int)),
        ((⟨"b.jpg", 600⟩ : ImageRecord), (0 : Int))] =
      [((⟨"a.jpg", 600⟩ : ImageRecord), (0 : Int)),
        ((⟨"b.jpg", 600⟩ : ImageRecord), (0 : Int))].map (fun e => [e]) :=
  auto_nonpos_max_singletons 0
    [((⟨"a.jpg", 600⟩ : ImageRecord), (0 : Int)),
      ((⟨"b.jpg", 600⟩ : ImageRecord), (0 : Int))]
    le_rfl (by decide)

/-! ### The rotation mapping (C3) -/

/-- **C3.** Both workflows' `rotate_image` functions agree on every image and
angle: 90 is the counter-clockwise quarter turn, 180 the half turn, 270 the
clockwise quarter turn, and every other angle (0 included) the identity.
`rotateCCW`/`rotate180`/`rotateCW` carry the pixel-level meaning: the CCW
turn sends row `i`, column `j` to the old row `j`, column `w - 1 - i`. -/
theorem rotate_image_mapping (img : Img) (angle : Int) :
    rotate_image img angle = rotate_image_pdf img angle ∧
    rotate_image img 90 = rotateCCW img ∧
    rotate_image img 180 = rotate180 img ∧
    rotate_image img 270 = rotateCW img ∧
    (angle ≠ 90 → angle ≠ 180 → angle ≠ 270 → rotate_image img angle = img) := by
  refine ⟨?_, rfl, rfl, rfl, fun h90 h180 h270 => ?_⟩
  · by_cases h90 : angle = 90
    · simp [rotate_image, rotate_image_pdf, pilTranspose, h90]
    · by_cases h180 : angle = 180
      · simp [rotate_image, rotate_image_pdf, pilTranspose, h90, h180]
      · by_cases h270 : angle = 270
        · simp [rotate_image, rotate_image_pdf, pilTranspose, h90, h180, h270]
        · simp [rotate_image, rotate_image_pdf, h90, h180, h270]
  · simp [rotate_image, h90, h180, h270]

/-- Concrete instance discharging the hypotheses of `rotate_image_mapping`:
an unknown angle (45) leaves the image untouched. -/
theorem rotate_image_mapping_witness :
    rotate_image ⟨2, 3, fun _ _ => 7⟩ 45 = ⟨2, 3, fun _ _ => 7⟩ :=
  (rotate_image_mapping ⟨2, 3, fun _ _ => 7⟩ 45).2.2.2.2
    (by decide) (by decide) (by decide)

/-! ### Review-artifact loading (C6) -/

/-- **C6 counterexample.** The claim "loading fails exactly when the JSON
root is not an object" is false in both directions: the object root
`{"corrections": 5}` makes the run die at `len(corrections)`, while an array
root sails through the loader as the legacy corrections value. -/
theorem loadReview_claim_false :
    loadReview (.obj [("corrections", .num 5)]) = none ∧
    (loadReview (.arr [])).isSome = true := by
  constructor
  · rfl
  · rfl

/-- **C6 amended.** An object root without a `corrections` key loads as the
legacy rotations map with empty break/discard sets; an object root with one
loads exactly when the `corrections` value has a Python length and the
`sectionBreaks`/`discards` members convert to sets; array and string roots
do NOT abort — they load as the (nonsensical) legacy corrections value;
only number, boolean and null roots abort, at `len(corrections)` during
loading, before any image enumeration. -/
theorem loadReview_spec :
    (∀ kvs : List (String × Json), (kvs.lookup "corrections").isSome = false →
      loadReview (.obj kvs) = some (.obj kvs, [], [])) ∧
    (∀ xs, loadReview (.arr xs) = some (.arr xs, [], [])) ∧
    (∀ s, loadReview (.str s) = some (.str s, [], [])) ∧
    (∀ n, loadReview (.num n) = none) ∧
    (∀ b, loadReview (.bool b) = none) ∧
    loadReview .null = none ∧
    (∀ kvs : List (String × Json), (kvs.lookup "corrections").isSome = true →
      ((loadReview (.obj kvs)).isSome ↔
        (pySet (jsonGetD kvs "sectionBreaks" (.arr []))).isSome ∧
        (pySet (jsonGetD kvs "discards" (.arr []))).isSome ∧
        (pyLen (jsonGetD kvs "corrections" (.obj []))).isSome)) := by
  refine ⟨?_, fun xs => rfl, fun s => rfl, fun n => rfl, fun b => rfl, rfl, ?_⟩
  · intro kvs h
    simp only [loadReview, h]
    simp
  · intro kvs h
    simp only [loadReview, h, if_true]
    rcases hsb : pySet (jsonGetD kvs "sectionBreaks" (.arr [])) with _ | sbs
    · simp [hsb]
    rcases hdc : pySet (jsonGetD kvs "discards" (.arr [])) with _ | dcs
    · simp [hsb, hdc]
    rcases hlen : pyLen (jsonGetD kvs "corrections" (.obj [])) with _ | len
    · simp [hsb, hdc, hlen]
    · simp [hsb, hdc, hlen]

/-- Concrete instance discharging the hypotheses of `loadReview_spec`: a
legacy artifact (a bare rotations map) loads with empty break and discard
sets. -/
theorem loadReview_spec_witness :
    loadReview (.obj [("a.jpg", .num 90)]) =
      some (.obj [("a.jpg", .num 90)], [], []) :=
  loadReview_spec.1 [("a.jpg", .num 90)] (by rfl)

/-! ### The archive writer (C8) -/

lemma createPdfLoop_some (decode : String → Option Img) (f : Img) (imgs : List Img)
    (l : List (String × Int)) :
    createPdfLoop decode (some f) imgs l = (some f, imgs ++ decodedPages decode l) := by
  induction l generalizing imgs with
  | nil => simp [createPdfLoop, decodedPages]
  | cons pr rest ih =>
    simp only [createPdfLoop, decodedPages, List.filterMap_cons]
    rcases hd : decode pr.1 with _ | img0
    · simpa [decodedPages] using ih imgs
    · simp only [Option.map_some]
      rw [ih (imgs ++ [_])]
      simp [decodedPages]

lemma createPdfLoop_none (decode : String → Option Img) (l : List (String × Int)) :
    createPdfLoop decode none [] l =
      match decodedPages decode l with
      | [] => (none, [])
      | p :: ps => (some p, ps) := by
  induction l with
  | nil => simp [createPdfLoop, decodedPages]
  | cons pr rest ih =>
    simp only [createPdfLoop, decodedPages, List.filterMap_cons]
    rcases hd : decode pr.1 with _ | img0
    · simpa [decodedPages] using ih
    · simp only [Option.map_some]
      rw [createPdfLoop_some]
      simp [decodedPages]

lemma decodedPages_cons_none (decode : String → Option Img) (pr : String × Int)
    (rest : List (String × Int)) (hd : decode pr.1 = none) :
    decodedPages decode (pr :: rest) = decodedPages decode rest := by
  simp [decodedPages, List.filterMap_cons, hd]

lemma decodedPages_cons_some (decode : String → Option Img) (pr : String × Int)
    (rest : List (String × Int)) (img0 : Img) (hd : decode pr.1 = some img0) :
    decodedPages decode (pr :: rest) =
      (if pr.2 ≠ 0 then rotate_image_pdf img0 pr.2 else img0) ::
        decodedPages decode rest := by
  simp [decodedPages, List.filterMap_cons, hd]

lemma decodedPages_length (decode : String → Option Img) (l : List (String × Int)) :
    (decodedPages decode l).length =
      (l.filter fun pr => (decode pr.1).isSome).length := by
  induction l with
  | nil => rfl
  | cons pr rest ih =>
    rcases hd : decode pr.1 with _ | img0
    · rw [decodedPages_cons_none decode pr rest hd, List.filter_cons]
      simp [hd, ih]
    · rw [decodedPages_cons_some decode pr rest img0 hd, List.filter_cons]
      simp [hd, ih]

/-- **C8.** The archive writer returns the number of entries that decoded
successfully; a failed decode skips only that entry while the others are
written in section order; and with zero successful decodes it returns 0 and
produces no output (`none`). -/
theorem createPdf_spec (decode : String → Option Img) (imageData : List (String × Int)) :
    (createPdf decode imageData).1 =
      (imageData.filter fun pr => (decode pr.1).isSome).length ∧
    (createPdf decode imageData).2 =
      (if (decodedPages decode imageData).isEmpty then none
        else some (decodedPages decode imageData)) := by
  rcases heq : imageData with _ | ⟨pr, rest⟩
  · constructor <;> rfl
  · rw [← heq]
    have hne : imageData ≠ [] := by rw [heq]; simp
    simp only [createPdf, if_neg hne]
    rw [createPdfLoop_none]
    rcases hp : decodedPages decode imageData with _ | ⟨p, ps⟩
    · have h0 : (imageData.filter fun pr => (decode pr.1).isSome).length = 0 := by
        rw [← decodedPages_length, hp]
        rfl
      simp [h0]
    · have hlen : (imageData.filter fun pr => (decode pr.1).isSome).length =
          ps.length + 1 := by
        rw [← decodedPages_length, hp]
        simp
      simp [hlen]

/-! ### Image enumeration (C9) -/

lemma filter_or_perm {α : Type} (p q : α → Bool) (l : List α)
    (h : ∀ x ∈ l, ¬(p x = true ∧ q x = true)) :
    (l.filter p ++ l.filter q).Perm (l.filter fun x => p x || q x) := by
  induction l with
  | nil => simp
  | cons a l ih =>
    have h' : ∀ x ∈ l, ¬(p x = true ∧ q x = true) :=
      fun x hx => h x (List.mem_cons_of_mem a hx)
    cases hp : p a <;> cases hq : q a
    · simp [List.filter_cons, hp, hq]
      exact ih h'
    · simp [List.filter_cons, hp, hq]
      exact List.perm_middle.trans ((ih h').cons a)
    · simp [List.filter_cons, hp, hq]
      exact ih h'
    · exact absurd ⟨hp, hq⟩ (h a (List.mem_cons_self a l))

lemma endsWithExt_disjoint (e₁ e₂ : String)
    (hns : ¬ e₁.toList <:+ e₂.toList) (hle : e₁.toList.length ≤ e₂.toList.length)
    (n : String) : ¬(endsWithExt e₁ n = true ∧ endsWithExt e₂ n = true) := by
  rintro ⟨h₁, h₂⟩
  rw [endsWithExt, decide_eq_true_eq] at h₁ h₂
  exact hns (List.suffix_of_suffix_length_le h₁ h₂ hle)

lemma rotationImages_perm (names : List String) :
    (rotationImages names).Perm (names.filter fun n =>
      endsWithExt ".JPEG" n || endsWithExt ".jpeg" n || endsWithExt ".jpg" n ||
        endsWithExt ".png" n) := by
  have d34 := endsWithExt_disjoint ".jpg" ".png" (by decide) (by decide)
  have d23 := endsWithExt_disjoint ".jpg" ".jpeg" (by decide) (by decide)
  have d24 := endsWithExt_disjoint ".png" ".jpeg" (by decide) (by decide)
  have d12 := endsWithExt_disjoint ".jpeg" ".JPEG" (by decide) (by decide)
  have d13 := endsWithExt_disjoint ".jpg" ".JPEG" (by decide) (by decide)
  have d14 := endsWithExt_disjoint ".png" ".JPEG" (by decide) (by decide)
  have s34 : (names.filter (endsWithExt ".jpg") ++
      names.filter (endsWithExt ".png")).Perm
      (names.filter fun n => endsWithExt ".jpg" n || endsWithExt ".png" n) :=
    filter_or_perm _ _ names (fun x _ => d34 x)
  have s234 : (names.filter (endsWithExt ".jpeg") ++
      (names.filter (endsWithExt ".jpg") ++ names.filter (endsWithExt ".png"))).Perm
      (names.filter fun n =>
        endsWithExt ".jpeg" n || (endsWithExt ".jpg" n || endsWithExt ".png" n)) := by
    refine ((s34.append_left _).trans ?_)
    refine filter_or_perm _ _ names fun x _ => ?_
    rintro ⟨h2, hor⟩
    rcases (Bool.or_eq_true _ _).mp hor with h3 | h4
    · exact d23 x ⟨h3, h2⟩
    · exact d24 x ⟨h4, h2⟩
  have s1234 : (names.filter (endsWithExt ".JPEG") ++
      (names.filter (endsWithExt ".jpeg") ++
        (names.filter (endsWithExt ".jpg") ++ names.filter (endsWithExt ".png")))).Perm
      (names.filter fun n =>
        endsWithExt ".JPEG" n ||
          (endsWithExt ".jpeg" n || (endsWithExt ".jpg" n || endsWithExt ".png" n))) := by
    refine ((s234.append_left _).trans ?_)
    refine filter_or_perm _ _ names fun x _ => ?_
    rintro ⟨h1, hor⟩
    rcases (Bool.or_eq_true _ _).mp hor with h2 | hor'
    · exact d12 x ⟨h2, h1⟩
    · rcases (Bool.or_eq_true _ _).mp hor' with h3 | h4
      · exact d13 x ⟨h3, h1⟩
      · exact d14 x ⟨h4, h1⟩
  have hassoc : (names.filter fun n =>
      endsWithExt ".JPEG" n ||
        (endsWithExt ".jpeg" n || (endsWithExt ".jpg" n || endsWithExt ".png" n))) =
      names.filter fun n =>
        endsWithExt ".JPEG" n || endsWithExt ".jpeg" n || endsWithExt ".jpg" n ||
          endsWithExt ".png" n := by
    refine List.filter_congr fun x _ => ?_
    cases endsWithExt ".JPEG" x <;> cases endsWithExt ".jpeg" x <;>
      cases endsWithExt ".jpg" x <;> cases endsWithExt ".png" x <;> rfl
  have hperm := List.mergeSort_perm (names.filter (endsWithExt ".JPEG") ++
    (names.filter (endsWithExt ".jpeg") ++
      (names.filter (endsWithExt ".jpg") ++ names.filter (endsWithExt ".png"))))
    (fun a b => a ≤ b)
  unfold rotationImages
  rw [List.append_assoc, List.append_assoc]
  exact hperm.trans (hassoc ▸ s1234)

/-- **C9 counterexample.** Extension matching is not case-insensitive:
`a.Jpg` is excluded by both workflows though the spec's case-insensitive
filter keeps it; moreover the workflows disagree between themselves —
`a.JPG` is kept by the PDF workflow and dropped by the rotation workflow. -/
theorem image_enum_not_case_insensitive :
    get_image_files ["a.Jpg"] = [] ∧
    specImageFiles ["a.Jpg"] = ["a.Jpg"] ∧
    get_image_files ["a.JPG"] = ["a.JPG"] ∧
    rotationImages ["a.JPG"] = [] := by
  refine ⟨?_, ?_, ?_, ?_⟩
  · have h : (["a.Jpg"].filter fun n => pathSuffix n ∈ imageExtensions) =
        ([] : List String) := by decide
    rw [get_image_files, h, List.mergeSort_nil]
  · have h : (["a.Jpg"].filter fun n =>
        [".jpeg", ".jpg", ".png"].any (strIEq (pathSuffix n))) = ["a.Jpg"] := by decide
    rw [specImageFiles, h, List.mergeSort_singleton]
  · have h : (["a.JPG"].filter fun n => pathSuffix n ∈ imageExtensions) =
        ["a.JPG"] := by decide
    rw [get_image_files, h, List.mergeSort_singleton]
  · have h1 : (["a.JPG"].filter (endsWithExt ".JPEG")) = ([] : List String) := by decide
    have h2 : (["a.JPG"].filter (endsWithExt ".jpeg")) = ([] : List String) := by decide
    have h3 : (["a.JPG"].filter (endsWithExt ".jpg")) = ([] : List String) := by decide
    have h4 : (["a.JPG"].filter (endsWithExt ".png")) = ([] : List String) := by decide
    rw [rotationImages, h1, h2, h3, h4]
    exact List.mergeSort_nil

/-- **C9 amended.** Each workflow enumerates lexicographically sorted
filenames, but the extension filters are case-sensitive and differ: the PDF
workflow keeps exactly the names whose `Path.suffix` is one of the six
literal strings `.jpeg/.jpg/.png/.JPEG/.JPG/.PNG`, while the rotation
workflow keeps exactly the names matching one of the four glob patterns
`*.JPEG`, `*.jpeg`, `*.jpg`, `*.png`. -/
theorem image_enumeration_spec (names : List String) :
    (get_image_files names).Sorted (· ≤ ·) ∧
    (get_image_files names).Perm
      (names.filter fun n => pathSuffix n ∈ imageExtensions) ∧
    (rotationImages names).Sorted (· ≤ ·) ∧
    (rotationImages names).Perm (names.filter fun n =>
      endsWithExt ".JPEG" n || endsWithExt ".jpeg" n || endsWithExt ".jpg" n ||
        endsWithExt ".png" n) := by
  refine ⟨List.sorted_mergeSort' _, List.mergeSort_perm _ _,
    List.sorted_mergeSort' _, rotationImages_perm names⟩

/-! ### The rotation-apply main loop (C10) -/

lemma processImages_spec (c : String → Option Int) (cu : Bool)
    (d : String → Option Img) (images : List String) :
    processImages c cu d images =
      (⟨(images.filter fun f => (c f).isSome && (d f).isSome).length,
        if cu then (images.filter fun f => !(c f).isSome).length else 0,
        if cu then 0 else (images.filter fun f => !(c f).isSome).length,
        (images.filter fun f => (c f).isSome && !(d f).isSome).length⟩,
       images.filterMap fun f =>
         (c f).bind fun angle => (d f).map fun img => (f, rotate_image img angle)) := by
  induction images with
  | nil => cases cu <;> simp [processImages]
  | cons f rest ih =>
    simp only [processImages, ih, List.filter_cons, List.filterMap_cons]
    rcases hc : c f with _ | angle
    · cases cu <;> simp [hc]
    · rcases hd : d f with _ | img <;> cases cu <;> simp [hc, hd]

lemma length_filter_bool_partition {α : Type} (p : α → Bool) (l : List α) :
    (l.filter p).length + (l.filter fun x => !(p x)).length = l.length := by
  induction l with
  | nil => rfl
  | cons a l ih =>
    cases hp : p a <;> simp [List.filter_cons, hp] <;> omega

lemma length_filter_and_partition {α : Type} (p q : α → Bool) (l : List α) :
    (l.filter fun x => p x && q x).length +
      (l.filter fun x => p x && !(q x)).length = (l.filter p).length := by
  induction l with
  | nil => rfl
  | cons a l ih =>
    cases hp : p a <;> cases hq : q a <;> simp [List.filter_cons, hp, hq] <;> omega

/-- **C10.** Every enumerated image increments exactly one of the four run
counters, so their sum equals the image count; the rotated counter counts
exactly the decodable corrections-map entries — membership alone, not the
angle value, decides it — and a corrections entry with angle 0 is decoded
and written back (re-encoded) unchanged. -/
theorem rotation_loop_spec (c : String → Option Int) (cu : Bool)
    (d : String → Option Img) (images : List String) :
    (processImages c cu d images).1.rotated + (processImages c cu d images).1.copied +
        (processImages c cu d images).1.skipped +
        (processImages c cu d images).1.errors = images.length ∧
    (processImages c cu d images).1.rotated =
      (images.filter fun f => (c f).isSome && (d f).isSome).length ∧
    (processImages c cu d images).2 =
      (images.filterMap fun f =>
        (c f).bind fun angle => (d f).map fun img => (f, rotate_image img angle)) ∧
    (∀ f img, f ∈ images → c f = some 0 → d f = some img →
      (f, img) ∈ (processImages c cu d images).2) := by
  rw [processImages_spec]
  refine ⟨?_, rfl, rfl, ?_⟩
  · have h1 := length_filter_and_partition (fun f => (c f).isSome)
      (fun f => (d f).isSome) images
    have h2 := length_filter_bool_partition (fun f => (c f).isSome) images
    cases cu <;> simp at h1 h2 ⊢ <;> omega
  · intro f img hf hc hd
    refine List.mem_filterMap.2 ⟨f, hf, ?_⟩
    simp [hc, hd, rotate_image]

/-- Concrete instance discharging the hypotheses of `rotation_loop_spec`: a
file with correction angle 0 is written out (as itself) by the loop. -/
theorem rotation_loop_spec_witness :
    ("a.jpg", (⟨1, 1, fun _ _ => 5⟩ : Img)) ∈
      (processImages (fun f => if f = "a.jpg" then some 0 else none) true
        (fun _ => some ⟨1, 1, fun _ _ => 5⟩) ["a.jpg"]).2 :=
  (rotation_loop_spec (fun f => if f = "a.jpg" then some 0 else none) true
      (fun _ => some ⟨1, 1, fun _ _ => 5⟩) ["a.jpg"]).2.2.2
    "a.jpg" ⟨1, 1, fun _ _ => 5⟩ (by simp) (by simp) rfl

end Archival
